import Mathlib

/-!
Verification of the consensus-based extraction loop in `src/extractor.ts`.

JavaScript strings are modelled as `List Char`. Each definition below is a
direct translation of the corresponding function in the source file; the
source line numbers are recorded in the doc comments.
-/

set_option maxRecDepth 4000
set_option linter.unusedSectionVars false
set_option linter.unnecessarySeqFocus false

abbrev Str := List Char

/-- The character set accepted by JavaScript's `String.prototype.trimEnd` /
`trimStart`: WhiteSpace (tab, VT, FF, space, NBSP, BOM, Unicode Zs) plus
LineTerminator (LF, CR, LS, PS). -/
def jsWhitespace (c : Char) : Bool :=
  let n := c.toNat
  n == 0x09 || n == 0x0A || n == 0x0B || n == 0x0C || n == 0x0D || n == 0x20 ||
  n == 0xA0 || n == 0x1680 || (decide (0x2000 ≤ n) && decide (n ≤ 0x200A)) ||
  n == 0x202F || n == 0x205F || n == 0x3000 || n == 0x2028 || n == 0x2029 ||
  n == 0xFEFF

/-- Helper for `collapseRuns`: the boolean records whether we are inside a run
of the collapsed character. -/
def collapseRunsAux (c : Char) : List Char → Bool → List Char
  | [], _ => []
  | x :: xs, inRun =>
    if x == c then
      if inRun then collapseRunsAux c xs true
      else x :: collapseRunsAux c xs true
    else x :: collapseRunsAux c xs false

/-- Models `.replace(/c+/g, c)`: every maximal run of `c` becomes a single `c`. -/
def collapseRuns (c : Char) (l : List Char) : List Char :=
  collapseRunsAux c l false

/-- Models JavaScript `.split("\n")`. -/
def splitNl : List Char → List (List Char)
  | [] => [[]]
  | x :: xs =>
    if x == '\n' then [] :: splitNl xs
    else
      match splitNl xs with
      | [] => [[x]]
      | l :: ls => (x :: l) :: ls

/-- Models JavaScript `String.prototype.trimEnd`. -/
def trimEndJs (l : List Char) : List Char :=
  (l.reverse.dropWhile jsWhitespace).reverse

/-- Models JavaScript `String.prototype.trimStart`. -/
def trimStartJs (l : List Char) : List Char :=
  l.dropWhile jsWhitespace

/-- `normalizeWhitespace` (src/extractor.ts lines 49-56):
`text.replace(/\n+/g, "\n").replace(/ +/g, " ").split("\n").map(line => line.trimEnd()).join("\n")`. -/
def normalizeWhitespace (text : Str) : Str :=
  List.intercalate ['\n'] ((splitNl (collapseRuns ' ' (collapseRuns '\n' text))).map trimEndJs)

/-- Accumulator-style last index of a character satisfying `p`;
`-1` when there is none.  Models JavaScript `lastIndexOf`. -/
def lastIdxAux (p : Char → Bool) : List Char → Nat → Int → Int
  | [], _, acc => acc
  | x :: xs, i, acc => lastIdxAux p xs (i + 1) (if p x then (i : Int) else acc)

/-- Last index in `l` whose character satisfies `p`, or `-1`. -/
def lastIndexOfP (p : Char → Bool) (l : Str) : Int :=
  lastIdxAux p l 0 (-1)

/-- `Math.max(text.lastIndexOf(" "), text.lastIndexOf("\n"), text.lastIndexOf("\t"))`
from src/extractor.ts line 60. -/
def lastSpaceIdx (text : Str) : Int :=
  max (lastIndexOfP (fun c => c == ' ') text)
    (max (lastIndexOfP (fun c => c == '\n') text) (lastIndexOfP (fun c => c == '\t') text))

/-- `trimToWordBoundary` (src/extractor.ts lines 58-62).  Note the strict
`lastSpace > 0` test of the source: a separator at index 0 leaves the
string unchanged. -/
def trimToWordBoundary (text : Str) : Str :=
  if text = [] then text
  else if 0 < lastSpaceIdx text then text.take ((lastSpaceIdx text).toNat + 1)
  else text

/-- The word-separator set used by `trimToWordBoundary`: space, newline, tab. -/
def isBreakChar (c : Char) : Bool :=
  (c == ' ') || ((c == '\n') || (c == '\t'))

/-- Models JavaScript `String.prototype.includes`: `needle` occurs
contiguously inside `hay`. -/
def hasInfix (hay needle : Str) : Bool :=
  hay.tails.any (fun t => needle.isPrefixOf t)

section Consensus

variable {α : Type} [DecidableEq α]

/-- Models `counts.set(k, (counts.get(k) || 0) + 1)` on a JavaScript `Map`
represented as an insertion-ordered association list: an existing key is
bumped in place, a new key is appended. -/
def bumpCount : List (α × Nat) → α → List (α × Nat)
  | [], k => [(k, 1)]
  | (k', n) :: rest, k =>
    if k' = k then (k', n + 1) :: rest else (k', n) :: bumpCount rest k

/-- The tally `Map` built by the `for (const norm of normalized)` loop of
`findConsensus` (src/extractor.ts lines 142-146). -/
def countsOf (ks : List α) : List (α × Nat) :=
  ks.foldl bumpCount []

/-- Stable descending insertion by count: an element passes below entries with
a strictly larger count and lands in front of entries with an equal or smaller
one.  This is the unique stable sort by `(a, b) => b[1] - a[1]`. -/
def insertDesc (x : α × Nat) : List (α × Nat) → List (α × Nat)
  | [] => [x]
  | y :: ys => if x.2 < y.2 then y :: insertDesc x ys else x :: y :: ys

/-- Models `[...counts.entries()].sort((a, b) => b[1] - a[1])`
(JavaScript's sort is stable). -/
def sortByCountDesc : List (α × Nat) → List (α × Nat)
  | [] => []
  | x :: xs => insertDesc x (sortByCountDesc xs)

end Consensus

/-- The representative-original selection of `findConsensus`
(src/extractor.ts lines 153-158): tally the original strings of the winning
group and take the head of the stable count-descending sort. -/
def bestOriginal (valid : List Str) (w : Str) : Option Str :=
  ((sortByCountDesc (countsOf
      (valid.filter (fun v => decide (normalizeWhitespace v = w))))).head?).map (·.1)

/-- `findConsensus` (src/extractor.ts lines 134-164). -/
def findConsensus (responses : List (Option Str)) (t : Nat) : Option Str × Nat :=
  if (responses.filterMap id) = [] then (none, 0)
  else
    match (sortByCountDesc (countsOf
        (((responses.filterMap id)).map normalizeWhitespace))).find?
        (fun p => decide (t ≤ p.2)) with
    | some p => (bestOriginal (responses.filterMap id) p.1, p.2)
    | none =>
      (none,
        (((sortByCountDesc (countsOf
            (((responses.filterMap id)).map normalizeWhitespace))).head?).map (·.2)).getD 0)

section SpecSide

variable {α : Type} [DecidableEq α]

/-- The distinct elements of a list, each kept at its first occurrence. -/
def dedupFirst : List α → List α
  | [] => []
  | k :: ks => k :: (dedupFirst ks).filter (fun x => decide (x ≠ k))

/-- Specification-level grouping: each canonical form, in first-encountered
order, paired with its tally. -/
def groupTallies (ks : List α) : List (α × Nat) :=
  (dedupFirst ks).map (fun k => (k, ks.count k))

/-- The largest count appearing in a tally list (0 for the empty list). -/
def maxVal (l : List (α × Nat)) : Nat :=
  l.foldr (fun p acc => max p.2 acc) 0

end SpecSide

/-- Specification-level representative for a winning canonical form `w`: among
the original completions whose normalized form is `w`, the most frequently
occurring original string, frequency ties broken by first-encountered order. -/
def specRepresentative (valid : List Str) (w : Str) : Option Str :=
  ((groupTallies (valid.filter (fun v => decide (normalizeWhitespace v = w)))).find?
    (fun p => decide (p.2 = maxVal
      (groupTallies (valid.filter (fun v => decide (normalizeWhitespace v = w))))))).map (·.1)

/-- `findConsensus` as the specification describes it: discard absent samples,
group by normalized form, and if the highest tally is at or above the
threshold return the representative of the winning canonical form together
with that tally, otherwise no consensus together with the highest observed
count. -/
def specFindConsensus (responses : List (Option Str)) (t : Nat) : Option Str × Nat :=
  if (responses.filterMap id) = [] then (none, 0)
  else if t ≤ maxVal (groupTallies ((responses.filterMap id).map normalizeWhitespace)) then
    match (groupTallies ((responses.filterMap id).map normalizeWhitespace)).find?
        (fun p => decide (p.2 = maxVal
          (groupTallies ((responses.filterMap id).map normalizeWhitespace)))) with
    | some p => (specRepresentative (responses.filterMap id) p.1, p.2)
    | none => (none, maxVal (groupTallies ((responses.filterMap id).map normalizeWhitespace)))
  else (none, maxVal (groupTallies ((responses.filterMap id).map normalizeWhitespace)))

/-- The configuration fields consumed by `runExtraction`
(src/extractor.ts lines 24-35; `consensusPct` is used as an integer
percentage, matching the CLI default of 50). -/
structure Config where
  maxIterations : Nat
  maxTokens : Nat
  consensusPct : Nat
  numRequests : Nat
  adaptive : Bool
  minTokens : Nat
deriving DecidableEq

/-- `Math.max(1, Math.floor((config.numRequests * config.consensusPct) / 100))`
(src/extractor.ts line 324). -/
def threshold (cfg : Config) : Nat :=
  max 1 (cfg.numRequests * cfg.consensusPct / 100)

/-- `Math.max(config.minTokens, Math.floor(currentTokens / 2))`
(src/extractor.ts line 350). -/
def reduceBudget (lo tokens : Nat) : Nat :=
  max lo (tokens / 2)

/-- The terminal reasons of `runExtraction`.  `aborted` covers an exception
reaching the `catch` block (interruption or unrecoverable error),
modelled at a request boundary. -/
inductive Outcome where
  | insufficientSamples
  | noConsensus
  | loopDetected
  | maxIterationsReached
  | aborted
deriving DecidableEq

/-- Result of one pass through the body of the inner `while (true)` loop of
`runExtraction`, after the batch of responses is in hand. -/
inductive StepResult where
  | stop (o : Outcome)
  | next (piece : Str)
  | retry (newTokens : Nat)
deriving DecidableEq

/-- The `else if (config.adaptive && currentTokens > config.minTokens)` /
`else` chain of src/extractor.ts lines 349-356. -/
def noConsensusStep (cfg : Config) (tokens : Nat) : StepResult :=
  if cfg.adaptive = true ∧ cfg.minTokens < tokens then
    .retry (reduceBudget cfg.minTokens tokens)
  else .stop .noConsensus

/-- The `if (consensus)` branch of src/extractor.ts lines 335-348.  JavaScript
truthiness sends an empty consensus string to the no-consensus chain. -/
def consensusStep (cfg : Config) (prefill : Str) (tokens : Nat) (c : Str) : StepResult :=
  if c = [] then noConsensusStep cfg tokens
  else if 50 < (trimToWordBoundary (normalizeWhitespace c)).length
      ∧ hasInfix prefill ((trimToWordBoundary (normalizeWhitespace c)).take 50) = true then
    .stop .loopDetected
  else .next (trimStartJs (trimToWordBoundary (normalizeWhitespace c)))

/-- One evaluation of a response batch: the body of the inner loop of
`runExtraction` from the `validCount` check on (src/extractor.ts
lines 324-356). -/
def attemptStep (cfg : Config) (prefill : Str) (tokens : Nat)
    (batch : List (Option Str)) : StepResult :=
  if (batch.filterMap id).length < threshold cfg then .stop .insufficientSamples
  else
    match (findConsensus batch (threshold cfg)).1 with
    | some c => consensusStep cfg prefill tokens c
    | none => noConsensusStep cfg tokens

theorem noConsensusStep_retry {cfg : Config} {tokens t' : Nat}
    (h : noConsensusStep cfg tokens = .retry t') :
    cfg.adaptive = true ∧ cfg.minTokens < tokens ∧ t' = reduceBudget cfg.minTokens tokens := by
  unfold noConsensusStep at h
  split at h
  · next hc =>
    cases h
    exact ⟨hc.1, hc.2, rfl⟩
  · cases h

theorem consensusStep_retry {cfg : Config} {prefill : Str} {tokens t' : Nat} {c : Str}
    (h : consensusStep cfg prefill tokens c = .retry t') :
    noConsensusStep cfg tokens = .retry t' := by
  unfold consensusStep at h
  split at h
  · exact h
  · split at h <;> cases h

theorem attemptStep_retry {cfg : Config} {prefill : Str} {tokens t' : Nat}
    {batch : List (Option Str)} (h : attemptStep cfg prefill tokens batch = .retry t') :
    noConsensusStep cfg tokens = .retry t' := by
  unfold attemptStep at h
  split at h
  · cases h
  · split at h
    · exact consensusStep_retry h
    · exact h

theorem attemptStep_retry_lt {cfg : Config} {prefill : Str} {tokens t' : Nat}
    {batch : List (Option Str)} (h : attemptStep cfg prefill tokens batch = .retry t') :
    t' < tokens := by
  obtain ⟨-, hlt, ht⟩ := noConsensusStep_retry (attemptStep_retry h)
  subst ht
  have h0 : 0 < tokens := Nat.lt_of_le_of_lt (Nat.zero_le _) hlt
  exact Nat.max_lt.mpr ⟨hlt, Nat.div_lt_self h0 (by norm_num)⟩

/-- How an iteration of the outer `for` loop ends: either the run terminates,
or a consensus `piece` (from `batch`) is appended and the next iteration
starts. -/
inductive IterEnd where
  | term (o : Outcome)
  | cont (batch : List (Option Str)) (piece : Str)
deriving DecidableEq

/-- Result of the inner `while (true)` loop: how the iteration ended, the
number of `fetchResponses` calls consumed so far, and how many adaptive
budget reductions happened within the iteration. -/
structure InnerOut where
  fin : IterEnd
  nextCall : Nat
  retries : Nat
deriving DecidableEq

/-- The inner `while (true)` loop of `runExtraction` (src/extractor.ts
lines 299-357), indexed by a fuel parameter.  `oracle k` is the batch
returned by the `k`-th `fetchResponses` call; `none` models an exception
thrown at that suspend point (interruption or unrecoverable service error).
The token budget strictly decreases on every retry, so any fuel above the
current budget is never exhausted (`innerLoopF_fuel_irrel`); the fuel-0
value is arbitrary and unreachable from `innerLoop`. -/
def innerLoopF (cfg : Config) (oracle : Nat → Option (List (Option Str)))
    (prefill : Str) : Nat → Nat → Nat → InnerOut
  | 0, k, _tokens => ⟨.term .aborted, k, 0⟩
  | fuel + 1, k, tokens =>
    match oracle k with
    | none => ⟨.term .aborted, k + 1, 0⟩
    | some batch =>
      match attemptStep cfg prefill tokens batch with
      | .stop o => ⟨.term o, k + 1, 0⟩
      | .next piece => ⟨.cont batch piece, k + 1, 0⟩
      | .retry t' =>
        let r := innerLoopF cfg oracle prefill fuel (k + 1) t'
        ⟨r.fin, r.nextCall, r.retries + 1⟩

theorem innerLoopF_fuel_irrel (cfg : Config) (oracle : Nat → Option (List (Option Str)))
    (prefill : Str) (tokens : Nat) :
    ∀ f₁ f₂ k, tokens < f₁ → tokens < f₂ →
      innerLoopF cfg oracle prefill f₁ k tokens = innerLoopF cfg oracle prefill f₂ k tokens := by
  induction tokens using Nat.strong_induction_on with
  | _ tokens ih =>
    intro f₁ f₂ k h₁ h₂
    obtain ⟨a, rfl⟩ : ∃ a, f₁ = a + 1 := ⟨f₁ - 1, by omega⟩
    obtain ⟨b, rfl⟩ : ∃ b, f₂ = b + 1 := ⟨f₂ - 1, by omega⟩
    simp only [innerLoopF]
    cases ho : oracle k with
    | none => simp only [ho]
    | some batch =>
      simp only [ho]
      cases hs : attemptStep cfg prefill tokens batch with
      | stop o => simp only [hs]
      | next piece => simp only [hs]
      | retry t' =>
        have hlt := attemptStep_retry_lt hs
        simp only [hs]
        rw [ih t' hlt a b (k + 1) (by omega) (by omega)]

/-- The inner `while (true)` loop of `runExtraction`, at its canonical
(always sufficient) fuel. -/
def innerLoop (cfg : Config) (oracle : Nat → Option (List (Option Str)))
    (prefill : Str) (k : Nat) (tokens : Nat) : InnerOut :=
  innerLoopF cfg oracle prefill (tokens + 1) k tokens

theorem innerLoop_none {cfg : Config} {oracle : Nat → Option (List (Option Str))}
    {prefill : Str} {k tokens : Nat} (h : oracle k = none) :
    innerLoop cfg oracle prefill k tokens = ⟨.term .aborted, k + 1, 0⟩ := by
  simp [innerLoop, innerLoopF, h]

theorem innerLoop_stop {cfg : Config} {oracle : Nat → Option (List (Option Str))}
    {prefill : Str} {k tokens : Nat} {batch : List (Option Str)} {o : Outcome}
    (h : oracle k = some batch) (hs : attemptStep cfg prefill tokens batch = .stop o) :
    innerLoop cfg oracle prefill k tokens = ⟨.term o, k + 1, 0⟩ := by
  simp [innerLoop, innerLoopF, h, hs]

theorem innerLoop_next {cfg : Config} {oracle : Nat → Option (List (Option Str))}
    {prefill : Str} {k tokens : Nat} {batch : List (Option Str)} {piece : Str}
    (h : oracle k = some batch) (hs : attemptStep cfg prefill tokens batch = .next piece) :
    innerLoop cfg oracle prefill k tokens = ⟨.cont batch piece, k + 1, 0⟩ := by
  simp [innerLoop, innerLoopF, h, hs]

theorem innerLoop_retry {cfg : Config} {oracle : Nat → Option (List (Option Str))}
    {prefill : Str} {k tokens t' : Nat} {batch : List (Option Str)}
    (h : oracle k = some batch) (hs : attemptStep cfg prefill tokens batch = .retry t') :
    innerLoop cfg oracle prefill k tokens =
      ⟨(innerLoop cfg oracle prefill (k + 1) t').fin,
       (innerLoop cfg oracle prefill (k + 1) t').nextCall,
       (innerLoop cfg oracle prefill (k + 1) t').retries + 1⟩ := by
  have hlt := attemptStep_retry_lt hs
  simp only [innerLoop]
  conv_lhs => rw [innerLoopF]
  simp only [h, hs]
  rw [innerLoopF_fuel_irrel cfg oracle prefill t' tokens (t' + 1) (k + 1) hlt (by omega)]

/-- The observable outcome of a whole run: terminal reason, final buffer,
the arguments of every `savePrefill` call, and every consensus append
(batch plus appended piece) in order. -/
structure RunResult where
  outcome : Outcome
  finalBuf : Str
  saves : List Str
  appends : List (List (Option Str) × Str)
deriving DecidableEq

/-- The outer `for` loop of `runExtraction` (src/extractor.ts lines 296-361),
counting down the remaining iterations.  Every terminal path performs its
`savePrefill` with the current buffer; each iteration restarts the inner
loop at `cfg.maxTokens` (line 297). -/
def runLoop (cfg : Config) (oracle : Nat → Option (List (Option Str))) :
    Nat → Nat → Str → RunResult
  | 0, _, prefill => ⟨.maxIterationsReached, prefill, [prefill], []⟩
  | n + 1, k, prefill =>
    match innerLoop cfg oracle prefill k cfg.maxTokens with
    | ⟨.term o, _, _⟩ => ⟨o, prefill, [prefill], []⟩
    | ⟨.cont batch piece, k', _⟩ =>
      let rest := runLoop cfg oracle n k' (prefill ++ piece)
      ⟨rest.outcome, rest.finalBuf, rest.saves, (batch, piece) :: rest.appends⟩

/-- `runExtraction` (src/extractor.ts lines 274-376) with the initial prefill
already loaded. -/
def runExtraction (cfg : Config) (oracle : Nat → Option (List (Option Str)))
    (initial : Str) : RunResult :=
  runLoop cfg oracle cfg.maxIterations 0 initial

/-- Outcome of one `client.messages.create` call as seen by `makeRequest`:
a response whose first content block yields `content` (or no text block),
or a thrown error. -/
inductive ApiOutcome where
  | ok (content : Option Str) (id : Str)
  | err
deriving DecidableEq

/-- The `RequestResult` of src/extractor.ts lines 37-40. -/
structure RequestResult where
  content : Option Str
  id : Option Str
deriving DecidableEq

/-- A `makeRequest` run: its result, the number of attempts performed, and
the backoff waits (in ms) taken between failed attempts. -/
structure RequestRun where
  result : RequestResult
  attemptsMade : Nat
  waits : List Nat
deriving DecidableEq

/-- The retry loop of `makeRequest` (src/extractor.ts lines 88-113), indexed
by the remaining number of attempts.  On failure before the last attempt it
waits `2 ** attempt * 1000` ms and retries; once attempts are exhausted it
returns the absent sample `{ content: null, id: null }`. -/
def mrAux (api : Nat → ApiOutcome) (maxRetries : Nat) : Nat → Nat → RequestRun
  | 0, attempt => ⟨⟨none, none⟩, attempt, []⟩
  | r + 1, attempt =>
    match api attempt with
    | .ok content id => ⟨⟨content, some id⟩, attempt + 1, []⟩
    | .err =>
      if attempt < maxRetries - 1 then
        let rest := mrAux api maxRetries r (attempt + 1)
        ⟨rest.result, rest.attemptsMade, (2 ^ attempt * 1000) :: rest.waits⟩
      else ⟨⟨none, none⟩, attempt + 1, []⟩

/-- `makeRequest` (src/extractor.ts lines 64-114); `api k` is the outcome of
the `k`-th attempt against the service. -/
def makeRequest (api : Nat → ApiOutcome) (maxRetries : Nat) : RequestRun :=
  mrAux api maxRetries maxRetries 0

section CountsLemmas

variable {α : Type} [DecidableEq α]

theorem mem_dedupFirst {x : α} {l : List α} : x ∈ dedupFirst l ↔ x ∈ l := by
  induction l with
  | nil => simp [dedupFirst]
  | cons k ks ih =>
    simp only [dedupFirst, List.mem_cons, List.mem_filter, decide_eq_true_eq, ih]
    constructor
    · rintro (rfl | ⟨hx, -⟩)
      · exact Or.inl rfl
      · exact Or.inr hx
    · rintro (rfl | hx)
      · exact Or.inl rfl
      · by_cases hxk : x = k
        · exact Or.inl hxk
        · exact Or.inr ⟨hx, hxk⟩

theorem dedupFirst_nodup (l : List α) : (dedupFirst l).Nodup := by
  induction l with
  | nil => simp [dedupFirst]
  | cons k ks ih =>
    refine List.Nodup.cons ?_ (ih.filter _)
    intro hk
    simp only [List.mem_filter, decide_eq_true_eq] at hk
    exact hk.2 rfl

theorem bumpCount_map_mem {ds : List α} {f : α → Nat} {k : α}
    (hnd : ds.Nodup) (hk : k ∈ ds) :
    bumpCount (ds.map (fun x => (x, f x))) k
      = ds.map (fun x => (x, f x + if x = k then 1 else 0)) := by
  induction ds with
  | nil => cases hk
  | cons d ds ih =>
    by_cases hdk : d = k
    · subst hdk
      have hb : bumpCount ((d, f d) :: List.map (fun x => (x, f x)) ds) d
          = (d, f d + 1) :: List.map (fun x => (x, f x)) ds := by
        simp [bumpCount]
      rw [List.map_cons, hb, List.map_cons]
      refine List.cons_eq_cons.mpr ⟨by simp, ?_⟩
      refine (List.map_congr_left ?_).symm
      intro x hx
      have hxd : ¬ x = d := fun hxd => (List.nodup_cons.mp hnd).1 (hxd ▸ hx)
      simp [hxd]
    · have hk' : k ∈ ds := by
        rcases List.mem_cons.mp hk with h' | h'
        · exact absurd h'.symm hdk
        · exact h'
      simp only [List.map_cons, bumpCount, if_neg hdk, Nat.add_zero]
      rw [ih (List.nodup_cons.mp hnd).2 hk']

theorem bumpCount_map_not_mem {ds : List α} {f : α → Nat} {k : α} (hk : k ∉ ds) :
    bumpCount (ds.map (fun x => (x, f x))) k = ds.map (fun x => (x, f x)) ++ [(k, 1)] := by
  induction ds with
  | nil => rfl
  | cons d ds ih =>
    have hdk : ¬ d = k := fun h => hk (h ▸ List.mem_cons_self d ds)
    simp only [List.map_cons, bumpCount, if_neg hdk, List.cons_append, List.cons.injEq, true_and]
    exact ih (fun h => hk (List.mem_cons_of_mem d h))

theorem dedupFirst_append_not_mem {l : List α} {k : α} (h : k ∉ l) :
    dedupFirst (l ++ [k]) = dedupFirst l ++ [k] := by
  induction l with
  | nil => rfl
  | cons x xs ih =>
    have hkx : k ≠ x := fun hkx => h (hkx ▸ List.mem_cons_self x xs)
    have h' : k ∉ xs := fun hm => h (List.mem_cons_of_mem x hm)
    rw [List.cons_append, dedupFirst, dedupFirst, ih h', List.filter_append, List.cons_append]
    congr 2
    simp [hkx]

theorem dedupFirst_append_mem {l : List α} {k : α} (h : k ∈ l) :
    dedupFirst (l ++ [k]) = dedupFirst l := by
  induction l with
  | nil => cases h
  | cons x xs ih =>
    rw [List.cons_append, dedupFirst, dedupFirst]
    by_cases hxs : k ∈ xs
    · rw [ih hxs]
    · have hkx : k = x := by
        rcases List.mem_cons.mp h with h' | h'
        · exact h'
        · exact absurd h' hxs
      subst hkx
      rw [dedupFirst_append_not_mem hxs, List.filter_append]
      simp

theorem countsOf_append_singleton (ks : List α) (k : α) :
    countsOf (ks ++ [k]) = bumpCount (countsOf ks) k := by
  simp [countsOf, List.foldl_append]

theorem groupTallies_append_singleton (ks : List α) (k : α) :
    groupTallies (ks ++ [k]) = bumpCount (groupTallies ks) k := by
  by_cases h : k ∈ ks
  · rw [groupTallies, groupTallies, dedupFirst_append_mem h,
      bumpCount_map_mem (dedupFirst_nodup ks) (mem_dedupFirst.mpr h)]
    refine List.map_congr_left ?_
    intro x hx
    simp only [Prod.mk.injEq, true_and, List.count_append]
    by_cases hxk : x = k
    · subst hxk
      simp [List.count_singleton]
    · simp [List.count_singleton', hxk, Ne.symm hxk]
  · rw [groupTallies, groupTallies, dedupFirst_append_not_mem h,
      bumpCount_map_not_mem (fun hm => h (mem_dedupFirst.mp hm)), List.map_append]
    simp only [List.map_cons, List.map_nil]
    congr 1
    · refine List.map_congr_left ?_
      intro x hx
      have hxk : x ≠ k := fun hxk => h (hxk ▸ mem_dedupFirst.mp hx)
      simp [List.count_append, List.count_singleton', hxk, Ne.symm hxk]
    · simp [List.count_append, List.count_singleton, List.count_eq_zero_of_not_mem h]

theorem countsOf_char (ks : List α) : countsOf ks = groupTallies ks := by
  induction ks using List.reverseRecOn with
  | nil => rfl
  | append_singleton ks k ih =>
    rw [countsOf_append_singleton, groupTallies_append_singleton, ih]

theorem countsOf_ne_nil {ks : List α} (h : ks ≠ []) : countsOf ks ≠ [] := by
  rw [countsOf_char]
  obtain ⟨x, xs, rfl⟩ := List.exists_cons_of_ne_nil h
  simp [groupTallies, dedupFirst]

theorem groupTallies_snd_le {p : α × Nat} {ks : List α} (h : p ∈ groupTallies ks) :
    p.2 ≤ ks.length := by
  obtain ⟨k, hk, rfl⟩ := List.mem_map.mp h
  exact List.count_le_length k ks

end CountsLemmas

section SortLemmas

variable {α : Type} [DecidableEq α]

theorem insertDesc_ne_nil (x : α × Nat) (l : List (α × Nat)) : insertDesc x l ≠ [] := by
  cases l with
  | nil => simp [insertDesc]
  | cons y ys =>
    rw [insertDesc]
    split <;> simp

theorem sortByCountDesc_ne_nil {l : List (α × Nat)} (h : l ≠ []) :
    sortByCountDesc l ≠ [] := by
  obtain ⟨x, xs, rfl⟩ := List.exists_cons_of_ne_nil h
  rw [sortByCountDesc]
  exact insertDesc_ne_nil x (sortByCountDesc xs)

theorem mem_insertDesc {a x : α × Nat} {l : List (α × Nat)} :
    a ∈ insertDesc x l ↔ a = x ∨ a ∈ l := by
  induction l with
  | nil => simp [insertDesc]
  | cons y ys ih =>
    rw [insertDesc]
    split <;> simp only [List.mem_cons, ih] <;> tauto

theorem mem_sortByCountDesc {a : α × Nat} {l : List (α × Nat)} :
    a ∈ sortByCountDesc l ↔ a ∈ l := by
  induction l with
  | nil => simp [sortByCountDesc]
  | cons x xs ih =>
    rw [sortByCountDesc]
    simp only [mem_insertDesc, ih, List.mem_cons]

theorem maxVal_cons (x : α × Nat) (l : List (α × Nat)) :
    maxVal (x :: l) = max x.2 (maxVal l) := rfl

theorem val_le_maxVal {q : α × Nat} {l : List (α × Nat)} (h : q ∈ l) : q.2 ≤ maxVal l := by
  induction l with
  | nil => cases h
  | cons x xs ih =>
    rw [maxVal_cons]
    rcases List.mem_cons.mp h with rfl | h'
    · exact Nat.le_max_left _ _
    · exact Nat.le_trans (ih h') (Nat.le_max_right _ _)

theorem sortByCountDesc_head? (l : List (α × Nat)) :
    (sortByCountDesc l).head? = l.find? (fun p => decide (p.2 = maxVal l)) := by
  induction l with
  | nil => rfl
  | cons x xs ih =>
    rw [sortByCountDesc]
    cases hs : sortByCountDesc xs with
    | nil =>
      have hxs : xs = [] := by
        by_contra hne
        exact sortByCountDesc_ne_nil hne hs
      subst hxs
      simp [insertDesc, maxVal_cons, maxVal]
    | cons y ys =>
      rw [hs] at ih
      have hy : xs.find? (fun p => decide (p.2 = maxVal xs)) = some y := ih.symm
      have hy2 : y.2 = maxVal xs := by
        have := List.find?_some hy
        simpa using this
      rw [insertDesc]
      split
      · next hlt =>
        have hmax : maxVal (x :: xs) = maxVal xs := by
          rw [maxVal_cons]
          exact Nat.max_eq_right (Nat.le_of_lt (hy2 ▸ hlt))
        have hxne : ¬ (x.2 = maxVal (x :: xs)) := by
          rw [hmax]
          exact Nat.ne_of_lt (hy2 ▸ hlt)
        rw [List.head?_cons, List.find?_cons_of_neg _ (by simpa using hxne), hmax]
        exact hy.symm
      · next hge =>
        have hge' : maxVal xs ≤ x.2 := by
          rw [← hy2]
          omega
        have hmax : maxVal (x :: xs) = x.2 := by
          rw [maxVal_cons]
          exact Nat.max_eq_left hge'
        rw [List.head?_cons, List.find?_cons_of_pos _ (by simp [hmax])]

theorem find?_maxVal_isSome {l : List (α × Nat)} (h : l ≠ []) :
    (l.find? (fun p => decide (p.2 = maxVal l))).isSome := by
  rw [← sortByCountDesc_head?]
  obtain ⟨y, ys, hs⟩ := List.exists_cons_of_ne_nil (sortByCountDesc_ne_nil h)
  rw [hs]
  rfl

theorem sortFind {l : List (α × Nat)} (t : Nat) (hl : l ≠ []) :
    (sortByCountDesc l).find? (fun p => decide (t ≤ p.2))
      = if t ≤ maxVal l then l.find? (fun p => decide (p.2 = maxVal l)) else none := by
  split
  · next hle =>
    obtain ⟨y, ys, hs⟩ := List.exists_cons_of_ne_nil (sortByCountDesc_ne_nil hl)
    have hh := sortByCountDesc_head? l
    rw [hs, List.head?_cons] at hh
    have hy2 : y.2 = maxVal l := by
      have := List.find?_some hh.symm
      simpa using this
    rw [hs, List.find?_cons_of_pos _ (by simp [hy2, hle]), hh]
  · next hgt =>
    rw [List.find?_eq_none]
    intro q hq
    have : q.2 ≤ maxVal l := val_le_maxVal (mem_sortByCountDesc.mp hq)
    simp only [decide_eq_true_eq]
    omega

end SortLemmas

theorem bestOriginal_eq_specRepresentative (valid : List Str) (w : Str) :
    bestOriginal valid w = specRepresentative valid w := by
  rw [bestOriginal, specRepresentative, countsOf_char, sortByCountDesc_head?]

theorem findConsensus_eq_specFindConsensus (responses : List (Option Str)) (t : Nat) :
    findConsensus responses t = specFindConsensus responses t := by
  rw [findConsensus, specFindConsensus]
  split
  · rfl
  · next hval =>
    have hnorm : (responses.filterMap id).map normalizeWhitespace ≠ [] := by
      simpa using hval
    have hgt : groupTallies ((responses.filterMap id).map normalizeWhitespace) ≠ [] := by
      rw [← countsOf_char]
      exact countsOf_ne_nil hnorm
    rw [countsOf_char, sortFind t hgt]
    by_cases hc : t ≤ maxVal (groupTallies ((responses.filterMap id).map normalizeWhitespace))
    · rw [if_pos hc, if_pos hc]
      cases hf : (groupTallies ((responses.filterMap id).map normalizeWhitespace)).find?
          (fun p => decide (p.2 = maxVal
            (groupTallies ((responses.filterMap id).map normalizeWhitespace)))) with
      | none =>
        have := find?_maxVal_isSome hgt
        rw [hf] at this
        cases this
      | some p =>
        simp only
        rw [bestOriginal_eq_specRepresentative]
    · rw [if_neg hc, if_neg hc]
      have hh := sortByCountDesc_head?
        (groupTallies ((responses.filterMap id).map normalizeWhitespace))
      cases hf : (groupTallies ((responses.filterMap id).map normalizeWhitespace)).find?
          (fun p => decide (p.2 = maxVal
            (groupTallies ((responses.filterMap id).map normalizeWhitespace)))) with
      | none =>
        have := find?_maxVal_isSome hgt
        rw [hf] at this
        cases this
      | some p =>
        have hp2 : p.2
            = maxVal (groupTallies ((responses.filterMap id).map normalizeWhitespace)) := by
          have := List.find?_some hf
          simpa using this
        rw [hf] at hh
        simp [hh, hp2]

theorem findConsensus_some {responses : List (Option Str)} {t : Nat} {c : Str} {n : Nat}
    (h : findConsensus responses t = (some c, n)) :
    t ≤ n ∧ n ≤ (responses.filterMap id).length := by
  rw [findConsensus] at h
  split at h
  · simp at h
  · next hval =>
    cases hf : (sortByCountDesc (countsOf
        ((responses.filterMap id).map normalizeWhitespace))).find?
        (fun p => decide (t ≤ p.2)) with
    | none =>
      rw [hf] at h
      simp at h
    | some p =>
      rw [hf] at h
      simp only [Prod.mk.injEq] at h
      obtain ⟨-, rfl⟩ := h
      have htp : t ≤ p.2 := by
        have := List.find?_some hf
        simpa using this
      have hmem : p ∈ countsOf ((responses.filterMap id).map normalizeWhitespace) :=
        mem_sortByCountDesc.mp (List.mem_of_find?_eq_some hf)
      rw [countsOf_char] at hmem
      refine ⟨htp, ?_⟩
      have hle := groupTallies_snd_le hmem
      simpa using hle

theorem findConsensus_none_snd {responses : List (Option Str)} {t : Nat} {c : Str} {n : Nat}
    (h : findConsensus responses t = (some c, n)) :
    (findConsensus responses t).1 = some c := by
  rw [h]

theorem attemptStep_insufficient {cfg : Config} {prefill : Str} {tokens : Nat}
    {batch : List (Option Str)} (h : (batch.filterMap id).length < threshold cfg) :
    attemptStep cfg prefill tokens batch = .stop .insufficientSamples := by
  rw [attemptStep, if_pos h]

theorem attemptStep_consensus {cfg : Config} {prefill : Str} {tokens : Nat}
    {batch : List (Option Str)} {c : Str} {n : Nat}
    (hc : findConsensus batch (threshold cfg) = (some c, n)) :
    attemptStep cfg prefill tokens batch = consensusStep cfg prefill tokens c := by
  obtain ⟨h1, h2⟩ := findConsensus_some hc
  rw [attemptStep, if_neg (by omega), hc]

theorem attemptStep_noConsensus {cfg : Config} {prefill : Str} {tokens : Nat}
    {batch : List (Option Str)}
    (hval : threshold cfg ≤ (batch.filterMap id).length)
    (hc : (findConsensus batch (threshold cfg)).1 = none) :
    attemptStep cfg prefill tokens batch = noConsensusStep cfg tokens := by
  rw [attemptStep, if_neg (by omega), hc]

theorem noConsensusStep_ne_next {cfg : Config} {tokens : Nat} {piece : Str} :
    noConsensusStep cfg tokens ≠ .next piece := by
  rw [noConsensusStep]
  split <;> simp

theorem attemptStep_next_inv {cfg : Config} {prefill : Str} {tokens : Nat}
    {batch : List (Option Str)} {piece : Str}
    (h : attemptStep cfg prefill tokens batch = .next piece) :
    ∃ c n, findConsensus batch (threshold cfg) = (some c, n) ∧ threshold cfg ≤ n ∧ c ≠ [] ∧
      piece = trimStartJs (trimToWordBoundary (normalizeWhitespace c)) := by
  rw [attemptStep] at h
  split at h
  · cases h
  · cases hm : (findConsensus batch (threshold cfg)).1 with
    | none =>
      simp only [hm] at h
      exact absurd h noConsensusStep_ne_next
    | some c =>
      simp only [hm] at h
      have hfull : findConsensus batch (threshold cfg)
          = (some c, (findConsensus batch (threshold cfg)).2) := by
        rw [← hm]
      refine ⟨c, (findConsensus batch (threshold cfg)).2, hfull, (findConsensus_some hfull).1, ?_⟩
      unfold consensusStep at h
      by_cases hc0 : c = []
      · rw [if_pos hc0] at h
        exact absurd h noConsensusStep_ne_next
      · rw [if_neg hc0] at h
        by_cases hloop : 50 < (trimToWordBoundary (normalizeWhitespace c)).length ∧
            hasInfix prefill ((trimToWordBoundary (normalizeWhitespace c)).take 50) = true
        · rw [if_pos hloop] at h
          cases h
        · rw [if_neg hloop] at h
          cases h
          exact ⟨hc0, rfl⟩

theorem innerLoop_retries_floor {cfg : Config} {oracle : Nat → Option (List (Option Str))}
    {prefill : Str} {k tokens : Nat} (h : tokens ≤ cfg.minTokens) :
    (innerLoop cfg oracle prefill k tokens).retries = 0 := by
  cases ho : oracle k with
  | none => rw [innerLoop_none ho]
  | some batch =>
    cases hs : attemptStep cfg prefill tokens batch with
    | stop o => rw [innerLoop_stop ho hs]
    | next piece => rw [innerLoop_next ho hs]
    | retry t' =>
      obtain ⟨-, hlt, -⟩ := noConsensusStep_retry (attemptStep_retry hs)
      omega

theorem innerLoop_retries_le (cfg : Config) (oracle : Nat → Option (List (Option Str)))
    (prefill : Str) :
    ∀ tokens k, (innerLoop cfg oracle prefill k tokens).retries ≤ Nat.log 2 tokens + 1 := by
  intro tokens
  induction tokens using Nat.strong_induction_on with
  | _ tokens ih =>
    intro k
    cases ho : oracle k with
    | none =>
      rw [innerLoop_none ho]
      simp
    | some batch =>
      cases hs : attemptStep cfg prefill tokens batch with
      | stop o =>
        rw [innerLoop_stop ho hs]
        simp
      | next piece =>
        rw [innerLoop_next ho hs]
        simp
      | retry t' =>
        rw [innerLoop_retry ho hs]
        simp only
        obtain ⟨hada, hlt, ht'⟩ := noConsensusStep_retry (attemptStep_retry hs)
        rcases Nat.lt_or_ge cfg.minTokens (tokens / 2) with hgt | hle
        · have ht'2 : t' = tokens / 2 := by
            rw [ht', reduceBudget, Nat.max_eq_right (Nat.le_of_lt hgt)]
          have h2 : 2 ≤ tokens := by omega
          have hrec := ih (tokens / 2) (by omega) (k + 1)
          have hld : Nat.log 2 (tokens / 2) = Nat.log 2 tokens - 1 := Nat.log_div_base 2 tokens
          have hpos : 0 < Nat.log 2 tokens := Nat.log_pos (by norm_num) h2
          rw [ht'2]
          omega
        · have ht'f : t' = cfg.minTokens := by
            rw [ht', reduceBudget, Nat.max_eq_left hle]
          have h0 : (innerLoop cfg oracle prefill (k + 1) t').retries = 0 :=
            innerLoop_retries_floor (by omega)
          omega

theorem innerLoop_cont_inv {cfg : Config} {oracle : Nat → Option (List (Option Str))}
    {prefill : Str} {batch : List (Option Str)} {piece : Str} :
    ∀ {tokens k}, (innerLoop cfg oracle prefill k tokens).fin = .cont batch piece →
      ∃ tok, attemptStep cfg prefill tok batch = .next piece := by
  intro tokens
  induction tokens using Nat.strong_induction_on with
  | _ tokens ih =>
    intro k h
    cases ho : oracle k with
    | none =>
      rw [innerLoop_none ho] at h
      cases h
    | some b =>
      cases hs : attemptStep cfg prefill tokens b with
      | stop o =>
        rw [innerLoop_stop ho hs] at h
        cases h
      | next piece' =>
        rw [innerLoop_next ho hs] at h
        cases h
        exact ⟨tokens, hs⟩
      | retry t' =>
        rw [innerLoop_retry ho hs] at h
        exact ih t' (attemptStep_retry_lt hs) h

theorem runLoop_saves (cfg : Config) (oracle : Nat → Option (List (Option Str))) :
    ∀ (n k : Nat) (prefill : Str),
      (runLoop cfg oracle n k prefill).saves = [(runLoop cfg oracle n k prefill).finalBuf] := by
  intro n
  induction n with
  | zero => intro k prefill; rfl
  | succ n ih =>
    intro k prefill
    rw [runLoop]
    cases h : innerLoop cfg oracle prefill k cfg.maxTokens with
    | mk fin k' r =>
      cases fin with
      | term o => rfl
      | cont batch piece =>
        simp only
        exact ih k' (prefill ++ piece)

theorem runLoop_final_eq (cfg : Config) (oracle : Nat → Option (List (Option Str))) :
    ∀ (n k : Nat) (prefill : Str),
      (runLoop cfg oracle n k prefill).finalBuf
        = prefill ++ ((runLoop cfg oracle n k prefill).appends.map (·.2)).flatten := by
  intro n
  induction n with
  | zero => intro k prefill; simp [runLoop]
  | succ n ih =>
    intro k prefill
    rw [runLoop]
    cases h : innerLoop cfg oracle prefill k cfg.maxTokens with
    | mk fin k' r =>
      cases fin with
      | term o => simp
      | cont batch piece =>
        simp only [List.map_cons, List.flatten_cons, ← List.append_assoc]
        exact ih k' (prefill ++ piece)

theorem runLoop_appends_consensus (cfg : Config) (oracle : Nat → Option (List (Option Str))) :
    ∀ (n k : Nat) (prefill : Str),
      ∀ bp ∈ (runLoop cfg oracle n k prefill).appends,
        ∃ c cnt, findConsensus bp.1 (threshold cfg) = (some c, cnt) ∧ threshold cfg ≤ cnt ∧
          c ≠ [] ∧ bp.2 = trimStartJs (trimToWordBoundary (normalizeWhitespace c)) := by
  intro n
  induction n with
  | zero => intro k prefill bp h; cases h
  | succ n ih =>
    intro k prefill bp hbp
    rw [runLoop] at hbp
    cases h : innerLoop cfg oracle prefill k cfg.maxTokens with
    | mk fin k' r =>
      rw [h] at hbp
      cases fin with
      | term o => cases hbp
      | cont batch piece =>
        simp only [List.mem_cons] at hbp
        rcases hbp with rfl | hbp'
        · have hfin : (innerLoop cfg oracle prefill k cfg.maxTokens).fin = .cont batch piece := by
            rw [h]
          obtain ⟨tok, hstep⟩ := innerLoop_cont_inv hfin
          obtain ⟨c, cnt, hfc, hth, hc0, hpiece⟩ := attemptStep_next_inv hstep
          exact ⟨c, cnt, hfc, hth, hc0, hpiece⟩
        · exact ih k' (prefill ++ piece) bp hbp'

theorem reduceBudget_iterate (lo b k : Nat) :
    (reduceBudget lo)^[k + 1] b = max lo (b / 2 ^ (k + 1)) := by
  induction k generalizing b with
  | zero => simp [reduceBudget]
  | succ k ih =>
    rw [Function.iterate_succ_apply, ih (reduceBudget lo b), reduceBudget]
    rcases Nat.le_total (b / 2) lo with hle | hge
    · rw [Nat.max_eq_left hle]
      have h1 : lo / 2 ^ (k + 1) ≤ lo := Nat.div_le_self _ _
      have h2 : b / 2 ^ (k + 2) ≤ lo := by
        have : b / 2 ^ (k + 2) = b / 2 / 2 ^ (k + 1) := by
          rw [Nat.div_div_eq_div_mul]
          congr 1
          ring
        rw [this]
        exact Nat.le_trans (Nat.div_le_self _ _) hle
      rw [Nat.max_eq_left h1, Nat.max_eq_left h2]
    · rw [Nat.max_eq_right hge]
      congr 1
      rw [Nat.div_div_eq_div_mul]
      congr 1
      ring

theorem reduceBudget_reaches_floor (lo b : Nat) :
    (reduceBudget lo)^[Nat.log 2 b + 1] b = lo := by
  rw [reduceBudget_iterate]
  have hlt : b < 2 ^ (Nat.log 2 b + 1) := Nat.lt_pow_succ_log_self (by norm_num) b
  rw [Nat.div_eq_of_lt hlt, Nat.max_eq_left (Nat.zero_le lo)]

theorem mrAux_attempts_le (api : Nat → ApiOutcome) (m : Nat) :
    ∀ r a, (mrAux api m r a).attemptsMade ≤ a + r := by
  intro r
  induction r with
  | zero => intro a; simp [mrAux]
  | succ r ih =>
    intro a
    cases hapi : api a with
    | ok content id => simp [mrAux, hapi]
    | err =>
      simp only [mrAux, hapi]
      by_cases hc : a < m - 1
      · rw [if_pos hc]
        have := ih (a + 1)
        dsimp only
        omega
      · rw [if_neg hc]
        dsimp only
        omega

theorem mrAux_allfail (api : Nat → ApiOutcome) (m : Nat) (hall : ∀ j, api j = .err) :
    ∀ r a, a + r = m →
      mrAux api m r a
        = ⟨⟨none, none⟩, m, (List.range' a (m - 1 - a)).map (fun j => 2 ^ j * 1000)⟩ := by
  intro r
  induction r with
  | zero =>
    intro a ha
    have ha' : a = m := by omega
    subst ha'
    have h0 : a - 1 - a = 0 := by omega
    rw [mrAux, h0]
    rfl
  | succ r ih =>
    intro a ha
    simp only [mrAux, hall a]
    by_cases hc : a < m - 1
    · rw [if_pos hc, ih (a + 1) (by omega)]
      dsimp only
      have h1 : m - 1 - a = (m - 1 - (a + 1)) + 1 := by omega
      rw [h1, List.range'_succ]
      simp
    · rw [if_neg hc]
      have h1 : a + 1 = m := by omega
      have h2 : m - 1 - a = 0 := by omega
      rw [h2, h1]
      rfl

theorem mrAux_waits_doubling (api : Nat → ApiOutcome) (m : Nat) :
    ∀ r a, (mrAux api m r a).waits
      = (List.range' a (mrAux api m r a).waits.length).map (fun j => 2 ^ j * 1000) := by
  intro r
  induction r with
  | zero => intro a; simp [mrAux]
  | succ r ih =>
    intro a
    cases hapi : api a with
    | ok content id => simp [mrAux, hapi]
    | err =>
      simp only [mrAux, hapi]
      by_cases hc : a < m - 1
      · rw [if_pos hc]
        dsimp only
        rw [List.length_cons, List.range'_succ]
        simp only [List.map_cons, List.cons.injEq, true_and]
        exact ih (a + 1)
      · rw [if_neg hc]
        simp

theorem makeRequest_attempts_le (api : Nat → ApiOutcome) (m : Nat) :
    (makeRequest api m).attemptsMade ≤ m := by
  have := mrAux_attempts_le api m m 0
  simpa [makeRequest] using this

theorem makeRequest_allfail (api : Nat → ApiOutcome) (m : Nat) (hall : ∀ j, api j = .err) :
    makeRequest api m
      = ⟨⟨none, none⟩, m, (List.range' 0 (m - 1)).map (fun j => 2 ^ j * 1000)⟩ := by
  rw [makeRequest, mrAux_allfail api m hall m 0 (by omega), Nat.sub_zero]

theorem makeRequest_waits_doubling (api : Nat → ApiOutcome) (m : Nat) :
    (makeRequest api m).waits
      = (List.range' 0 (makeRequest api m).waits.length).map (fun j => 2 ^ j * 1000) :=
  mrAux_waits_doubling api m m 0

theorem filterMap_id_replicate_none (j : Nat) :
    (List.replicate j (none : Option Str)).filterMap id = [] := by
  induction j with
  | zero => rfl
  | succ j ih => simp [List.replicate_succ, ih]

theorem filterMap_id_pad_none (batch : List (Option Str)) (j : Nat) :
    (batch ++ List.replicate j none).filterMap id = batch.filterMap id := by
  rw [List.filterMap_append, filterMap_id_replicate_none, List.append_nil]

theorem findConsensus_pad_none (rs : List (Option Str)) (t j : Nat) :
    findConsensus (rs ++ List.replicate j none) t = findConsensus rs t := by
  rw [findConsensus, findConsensus, filterMap_id_pad_none]

theorem attemptStep_pad_none (cfg : Config) (prefill : Str) (tokens : Nat)
    (batch : List (Option Str)) (j : Nat) :
    attemptStep cfg prefill tokens (batch ++ List.replicate j none)
      = attemptStep cfg prefill tokens batch := by
  rw [attemptStep, attemptStep, filterMap_id_pad_none, findConsensus_pad_none]

theorem hasInfix_iff {hay needle : Str} : hasInfix hay needle = true ↔ needle <:+: hay := by
  rw [hasInfix, List.any_eq_true]
  constructor
  · rintro ⟨t, ht, hp⟩
    exact List.infix_iff_prefix_suffix.mpr
      ⟨t, List.isPrefixOf_iff_prefix.mp hp, (List.mem_tails t hay).mp ht⟩
  · intro hinf
    obtain ⟨t, hpre, hsuf⟩ := List.infix_iff_prefix_suffix.mp hinf
    exact ⟨t, (List.mem_tails t hay).mpr hsuf, List.isPrefixOf_iff_prefix.mpr hpre⟩

theorem lastIdxAux_acc_le (p : Char → Bool) :
    ∀ (l : List Char) (i : Nat) (acc : Int), acc ≤ (i : Int) →
      acc ≤ lastIdxAux p l i acc := by
  intro l
  induction l with
  | nil => intro i acc h; exact le_refl acc |>.trans (le_refl _)
  | cons x xs ih =>
    intro i acc h
    rw [lastIdxAux]
    by_cases hp : p x
    · rw [if_pos hp]
      have h2 := ih (i + 1) (i : Int) (by push_cast; omega)
      exact h.trans h2
    · rw [if_neg hp]
      exact ih (i + 1) acc (by push_cast; omega)

theorem lastIdxAux_ge (p : Char → Bool) :
    ∀ (l : List Char) (i : Nat) (acc : Int) (j : Nat) (hj : j < l.length),
      p (l.get ⟨j, hj⟩) = true → (i + j : Int) ≤ lastIdxAux p l i acc := by
  intro l
  induction l with
  | nil => intro i acc j hj; cases hj
  | cons x xs ih =>
    intro i acc j hj hp
    rw [lastIdxAux]
    cases j with
    | zero =>
      simp only [List.get] at hp
      rw [if_pos hp]
      have := lastIdxAux_acc_le p xs (i + 1) (i : Int) (by push_cast; omega)
      push_cast
      omega
    | succ j =>
      have hj' : j < xs.length := by simpa using hj
      have hp' : p (xs.get ⟨j, hj'⟩) = true := by simpa using hp
      have := ih (i + 1) (if p x then (i : Int) else acc) j hj' hp'
      push_cast at this ⊢
      omega

theorem lastIdxAux_le (p : Char → Bool) :
    ∀ (l : List Char) (i : Nat) (acc : Int) (M : Int), acc ≤ M →
      (∀ (j : Nat) (hj : j < l.length), p (l.get ⟨j, hj⟩) = true → (i + j : Int) ≤ M) →
      lastIdxAux p l i acc ≤ M := by
  intro l
  induction l with
  | nil => intro i acc M hacc _; exact hacc
  | cons x xs ih =>
    intro i acc M hacc hall
    rw [lastIdxAux]
    refine ih (i + 1) _ M ?_ ?_
    · by_cases hp : p x
      · rw [if_pos hp]
        have := hall 0 (by simp) (by simpa using hp)
        simpa using this
      · rw [if_neg hp]
        exact hacc
    · intro j hj hp
      have := hall (j + 1) (by simpa using Nat.succ_lt_succ hj) (by simpa using hp)
      push_cast at this ⊢
      omega

theorem lastIndexOfP_le_of_break {l : Str} {i : Nat} {p : Char → Bool}
    (hsub : ∀ c, p c = true → isBreakChar c = true)
    (hafter : ∀ (j : Nat) (hj : j < l.length), i < j → isBreakChar (l.get ⟨j, hj⟩) = false) :
    lastIndexOfP p l ≤ (i : Int) := by
  refine lastIdxAux_le p l 0 (-1) i (by omega) ?_
  intro j hj hp
  by_cases hji : i < j
  · have hb := hafter j hj hji
    rw [hsub _ hp] at hb
    cases hb
  · push_cast
    omega

theorem lastSpaceIdx_eq {l : Str} {i : Nat} (hi : i < l.length)
    (hbreak : isBreakChar (l.get ⟨i, hi⟩) = true)
    (hafter : ∀ (j : Nat) (hj : j < l.length), i < j → isBreakChar (l.get ⟨j, hj⟩) = false) :
    lastSpaceIdx l = (i : Int) := by
  refine le_antisymm ?_ ?_
  · rw [lastSpaceIdx]
    refine max_le (lastIndexOfP_le_of_break ?_ hafter)
      (max_le (lastIndexOfP_le_of_break ?_ hafter) (lastIndexOfP_le_of_break ?_ hafter)) <;>
      (intro c hc; simp [isBreakChar, hc])
  · rw [isBreakChar] at hbreak
    rw [lastSpaceIdx]
    rcases Bool.or_eq_true_iff.mp hbreak with hsp | hnt
    · have hge := lastIdxAux_ge (fun c => c == ' ') l 0 (-1) i hi hsp
      refine le_trans ?_ (le_max_left _ _)
      rw [lastIndexOfP]
      push_cast at hge ⊢
      omega
    · rcases Bool.or_eq_true_iff.mp hnt with hnl | htb
      · have hge := lastIdxAux_ge (fun c => c == '\n') l 0 (-1) i hi hnl
        refine le_trans ?_ (le_trans (le_max_left _ _) (le_max_right _ _))
        rw [lastIndexOfP]
        push_cast at hge ⊢
        omega
      · have hge := lastIdxAux_ge (fun c => c == '\t') l 0 (-1) i hi htb
        refine le_trans ?_ (le_trans (le_max_right _ _) (le_max_right _ _))
        rw [lastIndexOfP]
        push_cast at hge ⊢
        omega

theorem trimToWordBoundary_eq_take {l : Str} {i : Nat} (hi : i < l.length) (hpos : 0 < i)
    (hbreak : isBreakChar (l.get ⟨i, hi⟩) = true)
    (hafter : ∀ (j : Nat) (hj : j < l.length), i < j → isBreakChar (l.get ⟨j, hj⟩) = false) :
    trimToWordBoundary l = l.take (i + 1) := by
  have hne : l ≠ [] := by
    intro h
    subst h
    cases hi
  rw [trimToWordBoundary, if_neg hne, lastSpaceIdx_eq hi hbreak hafter,
    if_pos (by exact_mod_cast hpos)]
  simp

theorem trimToWordBoundary_eq_self {l : Str}
    (hafter : ∀ (j : Nat) (hj : j < l.length), 0 < j → isBreakChar (l.get ⟨j, hj⟩) = false) :
    trimToWordBoundary l = l := by
  rw [trimToWordBoundary]
  split
  · rfl
  · have hle : lastSpaceIdx l ≤ (0 : Int) := by
      rw [lastSpaceIdx]
      refine max_le (lastIndexOfP_le_of_break ?_ hafter)
        (max_le (lastIndexOfP_le_of_break ?_ hafter) (lastIndexOfP_le_of_break ?_ hafter)) <;>
        (intro c hc; simp [isBreakChar, hc])
    rw [if_neg (by omega)]

/-- Claim C1: `findConsensus` discards absent samples, groups by
whitespace-normalized form, and on reaching the threshold returns the most
frequent original string of the winning canonical group (frequency ties by
first-encountered order) with the winning tally; otherwise it returns no
consensus with the highest observed group count (0 with no valid samples).
Stated as extensional equality with the specification-level resolver, plus
the two concrete scenarios of the specification. -/
theorem c1_consensus_resolver :
    (∀ (responses : List (Option Str)) (t : Nat),
      findConsensus responses t = specFindConsensus responses t)
    ∧ findConsensus [some "Hello world.".data, some "Hello  world.".data,
        some "Hello world!".data, none, some "Something else.".data] 2
        = (some "Hello world.".data, 2)
    ∧ findConsensus [some "alpha".data, some "beta".data, some "gamma".data,
        some "delta".data, some "epsilon".data] 3 = (none, 1) :=
  ⟨findConsensus_eq_specFindConsensus, by decide, by decide⟩

/-- Claim C2: the specification requires `normalizeWhitespace` to be
idempotent, but the code is not: on `"a\n \nb"` (a whitespace-only line
between two newlines) one pass yields `"a\n\nb"` — the line trimming creates
a new newline run — and a second pass collapses it to `"a\nb"`.  The
collapsing examples of the claim do hold. -/
theorem c2_normalize_not_idempotent :
    normalizeWhitespace (normalizeWhitespace "a\n \nb".data)
      ≠ normalizeWhitespace "a\n \nb".data
    ∧ normalizeWhitespace "a\n \nb".data = "a\n\nb".data
    ∧ normalizeWhitespace "a\n\nb".data = "a\nb".data
    ∧ normalizeWhitespace "a\n\n\nb".data = normalizeWhitespace "a\nb".data
    ∧ normalizeWhitespace "a   b".data = normalizeWhitespace "a b".data :=
  ⟨by decide, by decide, by decide, by decide, by decide⟩

/-- Claim C3 (amended): the loop guard fires exactly for trimmed candidates
STRICTLY longer than 50 characters whose leading 50-character segment occurs
anywhere in the buffer (the source tests `trimmed.length > 50`, so a
candidate of exactly 50 characters never triggers it); a candidate of at
most 50 characters never triggers the loop signal. -/
theorem c3_loop_guard (cfg : Config) (prefill : Str) (tokens : Nat)
    (batch : List (Option Str)) (c : Str) (cnt : Nat)
    (hc : findConsensus batch (threshold cfg) = (some c, cnt)) (hne : c ≠ []) :
    (50 < (trimToWordBoundary (normalizeWhitespace c)).length →
      (trimToWordBoundary (normalizeWhitespace c)).take 50 <:+: prefill →
      attemptStep cfg prefill tokens batch = .stop .loopDetected)
    ∧ ((trimToWordBoundary (normalizeWhitespace c)).length ≤ 50 →
      attemptStep cfg prefill tokens batch ≠ .stop .loopDetected) := by
  have hstep := @attemptStep_consensus cfg prefill tokens batch c cnt hc
  constructor
  · intro hlen hinf
    rw [hstep, consensusStep, if_neg hne, if_pos ⟨hlen, hasInfix_iff.mpr hinf⟩]
  · intro hlen
    rw [hstep, consensusStep, if_neg hne, if_neg (by rintro ⟨h1, -⟩; omega)]
    simp

def buf3 : Str := "a a a a a a a a a a a a a a a a a a a a a a a a a ".data

def cand3 : Str := "a a a a a a a a a a a a a a a a a a a a a a a a a zz".data

def cand3w : Str := "a a a a a a a a a a a a a a a a a a a a a a a a a b cc".data

def cfg3 : Config := ⟨1, 100, 50, 2, false, 20⟩

/-- Claim C3 counterexample: a consensus candidate whose trimmed form is
exactly 50 characters long and occurs verbatim in the buffer is appended
(`.next`), not flagged as a loop, refuting "at least the minimum length
(50 characters)". -/
theorem c3_counterexample :
    (trimToWordBoundary (normalizeWhitespace cand3)).length = 50
    ∧ hasInfix buf3 ((trimToWordBoundary (normalizeWhitespace cand3)).take 50) = true
    ∧ findConsensus [some cand3, some cand3] (threshold cfg3) = (some cand3, 2)
    ∧ attemptStep cfg3 buf3 100 [some cand3, some cand3] = .next buf3 :=
  ⟨by decide, by decide, by decide, by decide⟩

theorem c3_loop_guard_witness :
    attemptStep cfg3 buf3 100 [some cand3w, some cand3w] = .stop .loopDetected :=
  (c3_loop_guard cfg3 buf3 100 [some cand3w, some cand3w] cand3w 2
    (by decide) (by decide)).1 (by decide) ⟨[], [], by decide⟩

def cfg4 : Config := ⟨10, 120, 100, 2, true, 20⟩

def batch4 : List (Option Str) := [some "a".data, some "b".data]

/-- Claim C4: on failed consensus with adaptive mode on and the budget
strictly above the floor, the step retries the same iteration at
`max(floor, budget / 2)`; on failed consensus otherwise it stops the run.
The reduction never goes below the floor, the concrete chain from 120 with
floor 20 is 120 → 60 → 30 → 20 → stop, and each new iteration of the outer
loop restarts the inner loop at the configured maximum budget. -/
theorem c4_adaptive_budget :
    (∀ (cfg : Config) (prefill : Str) (tokens : Nat) (batch : List (Option Str)),
      threshold cfg ≤ (batch.filterMap id).length →
      (findConsensus batch (threshold cfg)).1 = none →
      (cfg.adaptive = true → cfg.minTokens < tokens →
        attemptStep cfg prefill tokens batch = .retry (max cfg.minTokens (tokens / 2)))
      ∧ (cfg.adaptive = false ∨ tokens ≤ cfg.minTokens →
        attemptStep cfg prefill tokens batch = .stop .noConsensus))
    ∧ (∀ lo tokens : Nat, lo ≤ reduceBudget lo tokens)
    ∧ attemptStep cfg4 [] 120 batch4 = .retry 60
    ∧ attemptStep cfg4 [] 60 batch4 = .retry 30
    ∧ attemptStep cfg4 [] 30 batch4 = .retry 20
    ∧ attemptStep cfg4 [] 20 batch4 = .stop .noConsensus
    ∧ (∀ (cfg : Config) (oracle : Nat → Option (List (Option Str))) (n k : Nat) (prefill : Str),
        runLoop cfg oracle (n + 1) k prefill
          = match innerLoop cfg oracle prefill k cfg.maxTokens with
            | ⟨.term o, _, _⟩ => ⟨o, prefill, [prefill], []⟩
            | ⟨.cont batch piece, k', _⟩ =>
              let rest := runLoop cfg oracle n k' (prefill ++ piece)
              ⟨rest.outcome, rest.finalBuf, rest.saves, (batch, piece) :: rest.appends⟩) := by
  refine ⟨?_, fun lo t => le_max_left _ _, by decide, by decide, by decide, by decide,
    fun cfg oracle n k p => rfl⟩
  intro cfg prefill tokens batch hval hnone
  constructor
  · intro hada hlt
    rw [attemptStep_noConsensus hval hnone, noConsensusStep, if_pos ⟨hada, hlt⟩, reduceBudget]
  · intro hcase
    rw [attemptStep_noConsensus hval hnone, noConsensusStep, if_neg ?_]
    rintro ⟨h1, h2⟩
    rcases hcase with hf | hle
    · rw [hf] at h1
      cases h1
    · omega

theorem c4_adaptive_budget_witness :
    attemptStep cfg4 [] 120 batch4 = .retry (max 20 60) :=
  (c4_adaptive_budget.1 cfg4 [] 120 batch4 (by decide) (by decide)).1 rfl (by decide)

def cfg5 : Config := ⟨10, 100, 50, 5, false, 20⟩

def batch5 : List (Option Str) := [none, none, none, some "x".data, none]

/-- Claim C5: the threshold is `max(1, ⌊numRequests · consensusPercent / 100⌋)`
(2 for 5 requests at 50%), and a batch with fewer valid samples than the
threshold makes the run terminate through the insufficient-samples path with
the current buffer saved, independently of the consensus resolver; in
particular for the batch `[null, null, null, "x", null]`. -/
theorem c5_threshold_insufficient :
    (∀ cfg : Config, threshold cfg = max 1 (cfg.numRequests * cfg.consensusPct / 100))
    ∧ threshold cfg5 = 2
    ∧ (∀ (cfg : Config) (prefill : Str) (tokens : Nat) (batch : List (Option Str)),
        (batch.filterMap id).length < threshold cfg →
        attemptStep cfg prefill tokens batch = .stop .insufficientSamples)
    ∧ (∀ (cfg : Config) (oracle : Nat → Option (List (Option Str))) (n k : Nat)
        (prefill : Str) (batch : List (Option Str)),
        oracle k = some batch → (batch.filterMap id).length < threshold cfg →
        runLoop cfg oracle (n + 1) k prefill = ⟨.insufficientSamples, prefill, [prefill], []⟩)
    ∧ attemptStep cfg5 [] 100 batch5 = .stop .insufficientSamples := by
  refine ⟨fun cfg => rfl, by decide, fun cfg p tok b h => attemptStep_insufficient h,
    ?_, by decide⟩
  intro cfg oracle n k p batch ho hlt
  rw [runLoop, innerLoop_stop ho (attemptStep_insufficient hlt)]

theorem c5_threshold_insufficient_witness :
    runLoop cfg5 (fun _ => some batch5) 1 0 [] = ⟨.insufficientSamples, [], [[]], []⟩ :=
  c5_threshold_insufficient.2.2.2.1 cfg5 (fun _ => some batch5) 0 0 [] batch5 rfl (by decide)

/-- Claim C6 (amended): `trimToWordBoundary` truncates just after the last
space, newline or tab when that separator sits at a POSITIVE index (so the
result ends with that separator); when no separator exists at a positive
index — including the case where the only separator is the very first
character, which the source's `lastSpace > 0` test treats like no separator —
the string is returned unchanged. -/
theorem c6_trim_boundary :
    (∀ l : Str,
      (∀ (j : Nat) (hj : j < l.length), 0 < j → isBreakChar (l.get ⟨j, hj⟩) = false) →
      trimToWordBoundary l = l)
    ∧ (∀ (l : Str) (i : Nat) (hi : i < l.length), 0 < i →
        isBreakChar (l.get ⟨i, hi⟩) = true →
        (∀ (j : Nat) (hj : j < l.length), i < j → isBreakChar (l.get ⟨j, hj⟩) = false) →
        trimToWordBoundary l = l.take (i + 1)
          ∧ (trimToWordBoundary l).getLast? = some (l.get ⟨i, hi⟩))
    ∧ trimToWordBoundary "the quick brown fo".data = "the quick brown ".data
    ∧ trimToWordBoundary "noSpacesHere".data = "noSpacesHere".data := by
  refine ⟨fun l h => trimToWordBoundary_eq_self h, ?_, by decide, by decide⟩
  intro l i hi hpos hbreak hafter
  have ht := trimToWordBoundary_eq_take hi hpos hbreak hafter
  refine ⟨ht, ?_⟩
  have hsplit : l.take (i + 1) = l.take i ++ [l.get ⟨i, hi⟩] := by
    have := List.take_concat_get l i hi
    simp only [List.concat_eq_append] at this
    exact this.symm
  rw [ht, hsplit, List.getLast?_concat]

/-- Claim C6 counterexample: on `" ab"` the last (and only) space sits at
index 0; the claim mandates truncation just after it (yielding `" "`), but
the code returns the string unchanged, ending mid-word. -/
theorem c6_counterexample :
    trimToWordBoundary " ab".data = " ab".data
    ∧ (" ab".data).get ⟨0, by decide⟩ = ' '
    ∧ " ab".data ≠ " ".data :=
  ⟨by decide, by decide, by decide⟩

theorem c6_trim_boundary_witness :
    trimToWordBoundary "ab cd".data = "ab cd".data.take 3
      ∧ (trimToWordBoundary "ab cd".data).getLast? = some ("ab cd".data.get ⟨2, by decide⟩) :=
  c6_trim_boundary.2.1 "ab cd".data 2 (by decide) (by decide) (by decide) (by decide)

/-- Claim C7: `makeRequest` performs at most 5 attempts; between failed
attempts it waits 1000·2^k ms in attempt order (exponential backoff); when
every attempt fails it returns the absent sample `{content: null, id: null}`
instead of an error; and absent samples are pure non-votes: padding a batch
with nulls changes neither the resolver's answer nor the orchestrator's step,
so exhaustion surfaces only through the insufficient-valid-sample check. -/
theorem c7_bounded_retries :
    (∀ api : Nat → ApiOutcome, (makeRequest api 5).attemptsMade ≤ 5)
    ∧ (∀ api : Nat → ApiOutcome, (∀ j, api j = .err) →
        makeRequest api 5 = ⟨⟨none, none⟩, 5, [1000, 2000, 4000, 8000]⟩)
    ∧ (∀ api : Nat → ApiOutcome, (makeRequest api 5).waits
        = (List.range' 0 ((makeRequest api 5).waits.length)).map (fun j => 2 ^ j * 1000))
    ∧ (∀ (rs : List (Option Str)) (t j : Nat),
        findConsensus (rs ++ List.replicate j none) t = findConsensus rs t)
    ∧ (∀ (cfg : Config) (prefill : Str) (tokens : Nat) (batch : List (Option Str)) (j : Nat),
        attemptStep cfg prefill tokens (batch ++ List.replicate j none)
          = attemptStep cfg prefill tokens batch) := by
  refine ⟨fun api => makeRequest_attempts_le api 5, ?_,
    fun api => makeRequest_waits_doubling api 5, findConsensus_pad_none, attemptStep_pad_none⟩
  intro api hall
  rw [makeRequest_allfail api 5 hall]
  rfl

theorem c7_bounded_retries_witness :
    makeRequest (fun _ => ApiOutcome.err) 5 = ⟨⟨none, none⟩, 5, [1000, 2000, 4000, 8000]⟩ :=
  c7_bounded_retries.2.1 (fun _ => ApiOutcome.err) (fun _ => rfl)

/-- Claim C8: in every terminal state of a run — insufficient samples, no
consensus, loop detected, max iterations, or an exception at a request
boundary (error/interruption) — the persistence collaborator receives
exactly one save, and that save carries the current buffer; no terminal path
drops accumulated content. -/
theorem c8_persist_once :
    (∀ (cfg : Config) (oracle : Nat → Option (List (Option Str))) (n k : Nat) (prefill : Str),
      (runLoop cfg oracle n k prefill).saves = [(runLoop cfg oracle n k prefill).finalBuf]
      ∧ (runLoop cfg oracle n k prefill).saves.length = 1)
    ∧ (∀ (cfg : Config) (oracle : Nat → Option (List (Option Str))) (prefill : Str),
      (runExtraction cfg oracle prefill).saves
        = [(runExtraction cfg oracle prefill).finalBuf]) := by
  constructor
  · intro cfg oracle n k p
    refine ⟨runLoop_saves cfg oracle n k p, ?_⟩
    rw [runLoop_saves]
    rfl
  · intro cfg oracle p
    exact runLoop_saves cfg oracle cfg.maxIterations 0 p

/-- Claim C9: the buffer grows monotonically — the starting fragment is a
prefix of the final buffer, which is exactly the starting fragment followed
by the appended pieces in order — and every appended piece comes from a
batch on which the resolver reached consensus at or above the threshold
(the piece being the trimmed, normalized consensus string); no minority
text is ever appended. -/
theorem c9_buffer_monotone_consensus_only :
    ∀ (cfg : Config) (oracle : Nat → Option (List (Option Str))) (n k : Nat) (prefill : Str),
      prefill <+: (runLoop cfg oracle n k prefill).finalBuf
      ∧ (runLoop cfg oracle n k prefill).finalBuf
          = prefill ++ ((runLoop cfg oracle n k prefill).appends.map (·.2)).flatten
      ∧ ∀ bp ∈ (runLoop cfg oracle n k prefill).appends,
          ∃ c cnt, findConsensus bp.1 (threshold cfg) = (some c, cnt) ∧ threshold cfg ≤ cnt ∧
            c ≠ [] ∧ bp.2 = trimStartJs (trimToWordBoundary (normalizeWhitespace c)) := by
  intro cfg oracle n k p
  exact ⟨⟨_, (runLoop_final_eq cfg oracle n k p).symm⟩, runLoop_final_eq cfg oracle n k p,
    runLoop_appends_consensus cfg oracle n k p⟩

def cfg9 : Config := ⟨1, 100, 50, 1, false, 20⟩

def batch9 : List (Option Str) := [some "hi there ".data]

theorem c9_buffer_monotone_consensus_only_witness :
    ∃ c cnt, findConsensus batch9 (threshold cfg9) = (some c, cnt) ∧ threshold cfg9 ≤ cnt ∧
      c ≠ [] ∧ ("hi ".data : Str) = trimStartJs (trimToWordBoundary (normalizeWhitespace c)) :=
  (c9_buffer_monotone_consensus_only cfg9 (fun _ => some batch9) 1 0 "x ".data).2.2
    (batch9, "hi ".data) (by decide)

/-- Claim C10: the adaptive update strictly decreases the budget whenever it
is above the floor, iterating it `log₂(budget) + 1` times lands exactly on
the floor, and within one iteration the inner loop performs at most
`log₂(budget) + 1` budget reductions before it ends (the oracle model makes
every service call return). -/
theorem c10_inner_loop_terminates :
    (∀ lo b : Nat, lo < b → reduceBudget lo b < b)
    ∧ (∀ lo b : Nat, (reduceBudget lo)^[Nat.log 2 b + 1] b = lo)
    ∧ (∀ (cfg : Config) (oracle : Nat → Option (List (Option Str))) (prefill : Str)
        (k tokens : Nat),
        (innerLoop cfg oracle prefill k tokens).retries ≤ Nat.log 2 tokens + 1) := by
  refine ⟨?_, reduceBudget_reaches_floor, fun cfg oracle prefill k tokens =>
    innerLoop_retries_le cfg oracle prefill tokens k⟩
  intro lo b hlt
  rw [reduceBudget]
  exact Nat.max_lt.mpr ⟨hlt, Nat.div_lt_self (by omega) (by norm_num)⟩

theorem c10_inner_loop_terminates_witness : reduceBudget 20 120 < 120 :=
  c10_inner_loop_terminates.1 20 120 (by decide)
